import Mathlib

/-!
Verification of the GECScore scoring-and-threshold-calibration pipeline
(src/detector/GECScore.py).

Numbers are modelled over the rationals.  Python float NaN (which arises in
degenerate ROC computations) is modelled as the `none` value of `NanQ`, and
the `numpy.inf` threshold prepended by `sklearn.metrics.roc_curve` is the
`Thresh.pinf` constructor.  The sklearn routines used by the source
(`roc_curve`, `auc`, `confusion_matrix`, `precision_score`, `recall_score`,
`f1_score`, `accuracy_score`) and `numpy.argmax` are embedded by their exact
algorithms; exceptions raised by library calls are modelled as `none` results.
-/

namespace GECScore

/-- A rational or NaN (Python float semantics for the degenerate cases). -/
abbrev NanQ := Option ℚ

/-- A threshold value: either positive infinity (prepended by
`sklearn.metrics.roc_curve` as the first threshold) or a rational. -/
inductive Thresh where
  | pinf : Thresh
  | val (q : ℚ) : Thresh
deriving DecidableEq

/-- Strict descending order on thresholds, `pinf` greatest. -/
def threshGt : Thresh → Thresh → Prop
  | .pinf, .pinf => False
  | .pinf, .val _ => True
  | .val _, .pinf => False
  | .val a, .val b => b < a

instance : DecidableRel threshGt := fun a b => by
  cases a <;> cases b <;> simp [threshGt] <;> infer_instance

/-- NaN-propagating subtraction. -/
def nsub : NanQ → NanQ → NanQ
  | some a, some b => some (a - b)
  | _, _ => none

/-- NaN-propagating addition. -/
def nadd : NanQ → NanQ → NanQ
  | some a, some b => some (a + b)
  | _, _ => none

/-- NaN-propagating multiplication. -/
def nmul : NanQ → NanQ → NanQ
  | some a, some b => some (a * b)
  | _, _ => none

/-- Python `<` on possibly-NaN floats: any comparison with NaN is `False`. -/
def nLt : NanQ → NanQ → Bool
  | some a, some b => decide (a < b)
  | _, _ => false

/-- Python `<=` on possibly-NaN floats: any comparison with NaN is `False`. -/
def nLe : NanQ → NanQ → Bool
  | some a, some b => decide (a ≤ b)
  | _, _ => false

/-- `numpy.argmax` update test: strictly greater, NaN comparisons false. -/
def ngt : NanQ → NanQ → Bool
  | some a, some b => decide (b < a)
  | _, _ => false

/-- Loop of `numpy.argmax`: scan left to right, replace the current best
index only on a strictly greater value. -/
def npArgmaxGo : ℕ → ℕ → NanQ → List NanQ → ℕ
  | _, best, _, [] => best
  | i, best, bv, x :: xs =>
    if ngt x bv then npArgmaxGo (i + 1) i x xs else npArgmaxGo (i + 1) best bv xs

/-- `numpy.argmax`: index of the first maximal element (first NaN if any NaN
is reached first, since NaN never compares greater). -/
def npArgmax : List NanQ → ℕ
  | [] => 0
  | x :: xs => npArgmaxGo 1 0 x xs

/-- `numpy.trapz y x`: trapezoidal integration, NaN-propagating. -/
def ntrapz (y x : List NanQ) : NanQ :=
  let pts := y.zip x
  let terms := List.zipWith
    (fun p q => nmul (nsub q.2 p.2) (nmul (nadd p.1 q.1) (some (1 / 2))))
    pts pts.tail
  terms.foldl nadd (some 0)

/-- NaN-propagating negation (for integration direction `-1`). -/
def nneg : NanQ → NanQ
  | some a => some (-a)
  | none => none

/-- `sklearn.metrics.auc x y`: checks that `x` has at least two points and is
monotone (NaN comparisons being `False`, an all-NaN `x` passes as
"increasing"), then integrates with `numpy.trapz`.  `error` models the raised
`ValueError`. -/
def npAuc (x y : List NanQ) : Except Unit NanQ :=
  if x.length < 2 then .error ()
  else
    let dx := List.zipWith nsub x.tail x
    if dx.any (fun d => nLt d (some 0)) then
      if dx.all (fun d => nLe d (some 0)) then .ok (nneg (ntrapz y x))
      else .error ()
    else .ok (ntrapz y x)

/-- Distinct values of a list in strictly descending order (the thresholds
enumerated by `sklearn.metrics.roc_curve`). -/
def distinctDesc (l : List ℚ) : List ℚ :=
  (l.dedup.insertionSort (· ≤ ·)).reverse

/-- One point of the ROC staircase: false-positive count, true-positive
count, and the threshold they correspond to. -/
structure RocPoint where
  fps : ℕ
  tps : ℕ
  thr : ℚ
deriving DecidableEq

/-- `sklearn.metrics._binary_clf_curve`: for each distinct score value `v`
(descending), the number of negative (label 0) and positive (label 1)
examples with score at least `v`. -/
def rawPoints (labels : List ℕ) (scores : List ℚ) : List RocPoint :=
  let pairs := labels.zip scores
  (distinctDesc scores).map (fun v =>
    ⟨pairs.countP (fun p => p.1 == 0 && decide (v ≤ p.2)),
     pairs.countP (fun p => p.1 == 1 && decide (v ≤ p.2)),
     v⟩)

/-- The `drop_intermediate` mask of `roc_curve`: an interior point `q` with
original neighbours `p` and `r` is kept iff the second difference of the
false-positive or true-positive counts is nonzero there. -/
def keepPoint (p q r : RocPoint) : Bool :=
  (p.fps + r.fps != 2 * q.fps) || (p.tps + r.tps != 2 * q.tps)

/-- Filters interior points by `keepPoint`, always keeping the last point;
the first argument is the original (unfiltered) predecessor. -/
def interiorFilter : RocPoint → List RocPoint → List RocPoint
  | _, [] => []
  | _, [z] => [z]
  | p, q :: r :: tl =>
    if keepPoint p q r then q :: interiorFilter q (r :: tl)
    else interiorFilter q (r :: tl)

/-- `drop_intermediate` of `roc_curve`: keeps the first point, the last
point, and interior points with nonzero second difference. -/
def dropIntermediate : List RocPoint → List RocPoint
  | [] => []
  | a :: rest => a :: interiorFilter a rest

/-- The ROC curve as returned by `sklearn.metrics.roc_curve`: rates may be
NaN when a class is absent. -/
structure RocCurve where
  fpr : List NanQ
  tpr : List NanQ
  thresholds : List Thresh
deriving DecidableEq

/-- `(l.getLast?).getD d`, i.e. `l[-1]` with a default. -/
def lastD (l : List ℕ) (d : ℕ) : ℕ := (l.getLast?).getD d

/-- The retained ROC staircase points: `drop_intermediate` is applied only
when there are more than two points. -/
def ptsOf (labels : List ℕ) (scores : List ℚ) : List RocPoint :=
  if (rawPoints labels scores).length ≤ 2 then rawPoints labels scores
  else dropIntermediate (rawPoints labels scores)

/-- The false-positive counts with the prepended origin point. -/
def fpsOf (labels : List ℕ) (scores : List ℚ) : List ℕ :=
  0 :: (ptsOf labels scores).map RocPoint.fps

/-- The true-positive counts with the prepended origin point. -/
def tpsOf (labels : List ℕ) (scores : List ℚ) : List ℕ :=
  0 :: (ptsOf labels scores).map RocPoint.tps

/-- The thresholds with the prepended `inf`. -/
def thrOf (labels : List ℕ) (scores : List ℚ) : List Thresh :=
  Thresh.pinf :: (ptsOf labels scores).map (fun p => Thresh.val p.thr)

/-- `fps[-1]`: the total number of negative (label 0) examples. -/
def nOf (labels : List ℕ) (scores : List ℚ) : ℕ :=
  lastD (fpsOf labels scores) 0

/-- `tps[-1]`: the total number of positive (label 1) examples. -/
def pOf (labels : List ℕ) (scores : List ℚ) : ℕ :=
  lastD (tpsOf labels scores) 0

/-- Body of `roc_curve` for nonempty input: drop intermediate collinear
points when more than two, prepend the `(0, 0, inf)` point, and divide the
counts by the totals, yielding NaN rates when a class is absent. -/
def rocCurveBody (labels : List ℕ) (scores : List ℚ) : RocCurve :=
  { fpr := if nOf labels scores = 0 then
             (fpsOf labels scores).map (fun _ => (none : NanQ))
           else (fpsOf labels scores).map
             (fun (f : ℕ) => some ((f : ℚ) / (nOf labels scores : ℚ))),
    tpr := if pOf labels scores = 0 then
             (tpsOf labels scores).map (fun _ => (none : NanQ))
           else (tpsOf labels scores).map
             (fun (t : ℕ) => some ((t : ℚ) / (pOf labels scores : ℚ))),
    thresholds := thrOf labels scores }

/-- `sklearn.metrics.roc_curve` (default `pos_label`, `drop_intermediate`);
`none` models the `IndexError` raised on empty input. -/
def rocCurve (labels : List ℕ) (scores : List ℚ) : Option RocCurve :=
  if scores.isEmpty then none else some (rocCurveBody labels scores)

/-- Decision rule of lines 75 and 100: predict positive iff the score is at
least the threshold (nothing reaches `inf`). -/
def threshGe (s : ℚ) : Thresh → Bool
  | .pinf => false
  | .val q => decide (q ≤ s)

/-- `1 if prob >= threshold else 0` (lines 75 and 100 of the source). -/
def binarize (t : Thresh) (s : ℚ) : ℕ :=
  if threshGe s t then 1 else 0

/-- Distinct values of a list of naturals in ascending order (the inferred
label set of `sklearn.metrics.confusion_matrix`). -/
def distinctAsc (l : List ℕ) : List ℕ :=
  l.dedup.insertionSort (· ≤ ·)

/-- `sklearn.metrics.confusion_matrix`: rows indexed by true label, columns
by predicted label, over the sorted union of observed labels. -/
def confusionMatrix (yTrue yPred : List ℕ) : List (List ℕ) :=
  let labs := distinctAsc (yTrue ++ yPred)
  labs.map (fun a => labs.map (fun b =>
    (yTrue.zip yPred).countP (fun p => p.1 == a && p.2 == b)))

/-- `sklearn.metrics.precision_score` (binary, `pos_label=1`, zero division
reported as 0). -/
def precisionScore (yTrue yPred : List ℕ) : ℚ :=
  let pairs := yTrue.zip yPred
  let tp := pairs.countP (fun p => p.1 == 1 && p.2 == 1)
  let predPos := pairs.countP (fun p => p.2 == 1)
  if predPos = 0 then 0 else (tp : ℚ) / (predPos : ℚ)

/-- `sklearn.metrics.recall_score` (binary, `pos_label=1`, zero division
reported as 0). -/
def recallScore (yTrue yPred : List ℕ) : ℚ :=
  let pairs := yTrue.zip yPred
  let tp := pairs.countP (fun p => p.1 == 1 && p.2 == 1)
  let actPos := pairs.countP (fun p => p.1 == 1)
  if actPos = 0 then 0 else (tp : ℚ) / (actPos : ℚ)

/-- `sklearn.metrics.f1_score` (binary, `pos_label=1`): equals
`2 tp / (2 tp + fp + fn)`, 0 when that denominator is 0. -/
def f1Score (yTrue yPred : List ℕ) : ℚ :=
  let pairs := yTrue.zip yPred
  let tp := pairs.countP (fun p => p.1 == 1 && p.2 == 1)
  let fp := pairs.countP (fun p => p.1 != 1 && p.2 == 1)
  let fn := pairs.countP (fun p => p.1 == 1 && p.2 != 1)
  if 2 * tp + fp + fn = 0 then 0 else (2 * tp : ℚ) / ((2 * tp + fp + fn : ℕ) : ℚ)

/-- `sklearn.metrics.accuracy_score`. -/
def accuracyScore (yTrue yPred : List ℕ) : ℚ :=
  let pairs := yTrue.zip yPred
  if pairs.length = 0 then 0
  else ((pairs.countP (fun p => p.1 == p.2) : ℚ) / (pairs.length : ℚ))

/-- The tuple returned by both metric functions of the source (and written
to the report json). -/
structure Report where
  roc_auc : NanQ
  optimal_threshold : Thresh
  conf_matrix : List (List ℕ)
  precision : ℚ
  recall_ : ℚ
  f1 : ℚ
  accuracy : ℚ
deriving DecidableEq

/-- Line 65 of the source: `real_labels = [0] * len(real_preds) + [1] *
len(sample_preds)` (identical at line 97). -/
def real_labels (real_preds sample_preds : List ℚ) : List ℕ :=
  List.replicate real_preds.length 0 ++ List.replicate sample_preds.length 1

/-- Line 66 of the source: `predicted_probs = real_preds + sample_preds`
(identical at line 98). -/
def predicted_probs (real_preds sample_preds : List ℚ) : List ℚ :=
  real_preds ++ sample_preds

/-- `i` is the first index of the maximum of `l` (the `numpy.argmax`
contract on NaN-free data). -/
def IsFirstMax (l : List ℚ) (i : ℕ) : Prop :=
  i < l.length ∧ (∀ j, j < l.length → l.getD j 0 ≤ l.getD i 0) ∧
  (∀ j, j < i → l.getD j 0 < l.getD i 0)

/-- The threshold selected by lines 72-73 of the source:
`thresholds[np.argmax(tpr - fpr)]`. -/
def chosenThresh (labels : List ℕ) (scores : List ℚ) : Thresh :=
  (thrOf labels scores).getD
    (npArgmax (List.zipWith nsub (rocCurveBody labels scores).tpr
      (rocCurveBody labels scores).fpr)) .pinf

/-- Lines 68-82 of `get_roc_metrics`, generic in the already-built label and
score vectors: ROC curve and AUC over the raw scores, Youden J argmax for
the optimal threshold, then hard predictions and the standard metrics. -/
def calibrateOn (labels : List ℕ) (scores : List ℚ) : Option Report :=
  (rocCurve labels scores).bind fun c =>
    match npAuc c.fpr c.tpr with
    | .error _ => none
    | .ok rocAuc =>
      let J := List.zipWith nsub c.tpr c.fpr
      let optimalIdx := npArgmax J
      let optimalThreshold := c.thresholds.getD optimalIdx .pinf
      let predictions := scores.map (binarize optimalThreshold)
      some ⟨rocAuc, optimalThreshold, confusionMatrix labels predictions,
        precisionScore labels predictions, recallScore labels predictions,
        f1Score labels predictions, accuracyScore labels predictions⟩

/-- Lines 100-110 of `get_roc_metrics_with_threshold`, generic in the label
and score vectors: hard predictions from the fixed threshold first, then a
ROC curve and AUC computed over those hard 0/1 predictions, then the
standard metrics. -/
def evaluateOn (labels : List ℕ) (scores : List ℚ) (threshold : Thresh) :
    Option Report :=
  let predictions := scores.map (binarize threshold)
  (rocCurve labels (predictions.map (fun (n : ℕ) => (n : ℚ)))).bind fun c =>
    match npAuc c.fpr c.tpr with
    | .error _ => none
    | .ok rocAuc =>
      some ⟨rocAuc, threshold, confusionMatrix labels predictions,
        precisionScore labels predictions, recallScore labels predictions,
        f1Score labels predictions, accuracyScore labels predictions⟩

/-- `get_roc_metrics` (lines 52-82 of the source). -/
def get_roc_metrics (real_preds sample_preds : List ℚ) : Option Report :=
  calibrateOn (real_labels real_preds sample_preds)
    (predicted_probs real_preds sample_preds)

/-- `get_roc_metrics_with_threshold` (lines 85-110 of the source). -/
def get_roc_metrics_with_threshold (real_preds sample_preds : List ℚ)
    (threshold : Thresh) : Option Report :=
  evaluateOn (real_labels real_preds sample_preds)
    (predicted_probs real_preds sample_preds) threshold

/-- Whitespace tokenisation of a text. -/
def tokenize (s : String) : List String :=
  (s.splitOn " ").filter (fun w => w != "")

/-- The bigrams of a token list, in order. -/
def bigramsOf (ts : List String) : List (String × String) :=
  ts.zip ts.tail

/-- Size of the multiset intersection: each element of the first list is
matched against at most one remaining element of the second. -/
def matchCount {α : Type} [DecidableEq α] : List α → List α → ℕ
  | [], _ => 0
  | x :: xs, ys =>
    if x ∈ ys then 1 + matchCount xs (ys.erase x) else matchCount xs ys

/-- Modelled from the spec: the SimilarityScorer contract of section 4.1.
The source (line 152) delegates scoring to the external `rouge` package
(`rouge.get_scores(text, gec_text)`, ROUGE-2 F measure), which is not part
of this repository; the spec defines it as the bigram F measure between the
two texts, 1 if the texts are identical, 0 if either text has no bigrams
and the texts differ, and a `ScoringFailed` error (here `Except.error ()`,
the exception the source catches at line 154) when either text is empty. -/
def score (original corrected : String) : Except Unit ℚ :=
  if original = "" ∨ corrected = "" then .error ()
  else if original = corrected then .ok 1
  else
    let bo := bigramsOf (tokenize original)
    let bc := bigramsOf (tokenize corrected)
    if bo.isEmpty ∨ bc.isEmpty then .ok 0
    else .ok (2 * (matchCount bo bc : ℚ) / ((bo.length : ℚ) + (bc.length : ℚ)))

/-- One input item as read from the data file (section 6 of the spec):
`gec_text` is `none` when the key is missing or null, and the score field
is `none` when the `llm_text_rouge2_score` key is absent, `some none` when
it is null. -/
structure Item where
  text : String
  gec_text : Option String
  label : String
  rouge2 : Option (Option ℚ)
deriving DecidableEq

/-- The `predictions` dictionary built by `process_data` (line 135). -/
structure Preds where
  human : List (Option ℚ)
  llm : List (Option ℚ)
deriving DecidableEq

/-- Python truthiness of an optional string: missing, `None` and the empty
string are falsy. -/
def truthy : Option String → Bool
  | none => false
  | some s => decide (s ≠ "")

/-- One iteration of the loop of `process_data` (lines 137-162).  `corr`
models the external `chat_with_gpt4o` call (returns `none` on failure).
The correction step fills `gec_text` only when it is falsy; the scoring
step runs only when `gec_text` is truthy, setting the score key to null
when the rouge call raises; the grouping step then reads the score key
unconditionally, so an item whose score key was never set raises a KeyError
(modelled as the `none` result) that aborts the whole loop. -/
def processItem (corr : String → Option String) (acc : Preds) (it : Item) :
    Option Preds :=
  let gec := if truthy it.gec_text then it.gec_text else corr it.text
  let sc : Option (Option ℚ) :=
    if truthy gec then
      match score it.text (gec.getD "") with
      | .ok q => some (some q)
      | .error _ => some none
    else it.rouge2
  if it.label = "human" then
    sc.map (fun v => { acc with human := acc.human ++ [v] })
  else if it.label = "llm" then
    sc.map (fun v => { acc with llm := acc.llm ++ [v] })
  else some acc

/-- The per-item loop of `process_data` (lines 135-168; the file cache and
json I/O around it are external).  `none` models an uncaught exception
escaping the loop. -/
def process_data (corr : String → Option String) (items : List Item) :
    Option Preds :=
  items.foldlM (processItem corr) ⟨[], []⟩

/-- Lifting a population to plain scores: a null entry makes the comparison
`prob >= threshold` (line 100) raise a TypeError, modelled as `none`. -/
def liftScores (l : List (Option ℚ)) : Option (List ℚ) :=
  l.mapM id

/-- The test loop of `experiment` (lines 188-207 and 227-246): each test
file is processed with `process_data` and evaluated with
`get_roc_metrics_with_threshold`; there is no exception handling around the
loop body, so a failure propagates and aborts the remaining files. -/
def runTests (corr : String → Option String) (t : Thresh)
    (files : List (List Item)) : Option (List Report) :=
  files.foldlM (fun acc file => do
    let preds ← process_data corr file
    let hs ← liftScores preds.human
    let ls ← liftScores preds.llm
    let r ← get_roc_metrics_with_threshold hs ls t
    pure (acc ++ [r])) []

/-! ### List helper lemmas -/

theorem getLast?_cons_ne_nil {α : Type} (a : α) (l : List α) (h : l ≠ []) :
    (a :: l).getLast? = l.getLast? := by
  cases l with
  | nil => exact absurd rfl h
  | cons b t => exact List.getLast?_cons_cons

theorem getD_append_left {α : Type} (l₁ l₂ : List α) (i : ℕ) (d : α)
    (h : i < l₁.length) : (l₁ ++ l₂).getD i d = l₁.getD i d := by
  simp [List.getD_eq_getElem?_getD, List.getElem?_append, h]

theorem getD_append_right {α : Type} (l₁ l₂ : List α) (i : ℕ) (d : α)
    (h : l₁.length ≤ i) : (l₁ ++ l₂).getD i d = l₂.getD (i - l₁.length) d := by
  simp [List.getD_eq_getElem?_getD, List.getElem?_append_right h]

theorem getD_replicate {α : Type} (n : ℕ) (a d : α) (i : ℕ) :
    (List.replicate n a).getD i d = if i < n then a else d := by
  by_cases h : i < n <;> simp [List.getD_eq_getElem?_getD, List.getElem?_replicate, h]

/-! ### numpy argmax: first maximum on NaN-free data -/

theorem npArgmaxGo_spec (xs : List ℚ) :
    ∀ (pre : List ℚ) (best : ℕ), best < pre.length →
    (∀ j, j < pre.length → pre.getD j 0 ≤ pre.getD best 0) →
    (∀ j, j < best → pre.getD j 0 < pre.getD best 0) →
    IsFirstMax (pre ++ xs)
      (npArgmaxGo pre.length best (some (pre.getD best 0)) (xs.map some)) := by
  induction xs with
  | nil =>
    intro pre best h1 h2 h3
    simp only [List.map_nil, npArgmaxGo, List.append_nil]
    exact ⟨h1, h2, h3⟩
  | cons x xs ih =>
    intro pre best h1 h2 h3
    have hassoc : (pre ++ [x]) ++ xs = pre ++ x :: xs := by
      rw [List.append_assoc, List.singleton_append]
    have hlen : (pre ++ [x]).length = pre.length + 1 := by simp
    have hxat : (pre ++ [x]).getD pre.length 0 = x := by
      rw [getD_append_right pre [x] pre.length 0 (le_refl _)]
      simp [List.getD]
    by_cases hx : pre.getD best 0 < x
    · have step : npArgmaxGo pre.length best (some (pre.getD best 0))
          ((x :: xs).map some)
          = npArgmaxGo (pre ++ [x]).length pre.length
            (some ((pre ++ [x]).getD pre.length 0)) (xs.map some) := by
        simp only [List.map_cons, npArgmaxGo, ngt, decide_eq_true_eq, if_pos hx,
          hlen, hxat]
      rw [← hassoc, step]
      apply ih (pre ++ [x]) pre.length (by simp)
      · intro j hj
        rw [hlen] at hj
        rcases Nat.lt_succ_iff_lt_or_eq.mp hj with hj' | hj'
        · rw [getD_append_left pre [x] j 0 hj', hxat]
          exact le_of_lt (lt_of_le_of_lt (h2 j hj') hx)
        · rw [hj']
      · intro j hj
        rw [getD_append_left pre [x] j 0 hj, hxat]
        exact lt_of_le_of_lt (h2 j hj) hx
    · have step : npArgmaxGo pre.length best (some (pre.getD best 0))
          ((x :: xs).map some)
          = npArgmaxGo (pre ++ [x]).length best
            (some ((pre ++ [x]).getD best 0)) (xs.map some) := by
        simp only [List.map_cons, npArgmaxGo, ngt, decide_eq_true_eq, if_neg hx,
          hlen, getD_append_left pre [x] best 0 h1]
      rw [← hassoc, step]
      apply ih (pre ++ [x]) best (by simp; omega)
      · intro j hj
        rw [hlen] at hj
        rw [getD_append_left pre [x] best 0 h1]
        rcases Nat.lt_succ_iff_lt_or_eq.mp hj with hj' | hj'
        · rw [getD_append_left pre [x] j 0 hj']
          exact h2 j hj'
        · rw [hj', hxat]
          exact le_of_not_lt hx
      · intro j hj
        rw [getD_append_left pre [x] best 0 h1,
          getD_append_left pre [x] j 0 (lt_trans hj h1)]
        exact h3 j hj

theorem npArgmax_spec (l : List ℚ) (h : l ≠ []) :
    IsFirstMax l (npArgmax (l.map some)) := by
  match l with
  | x :: xs =>
    have := npArgmaxGo_spec xs [x] 0 (by simp)
      (by
        intro j hj
        have hj0 : j = 0 := Nat.lt_one_iff.mp (by simpa using hj)
        simp [hj0])
      (by intro j hj; omega)
    simpa [npArgmax, npArgmaxGo, List.getD] using this

/-! ### distinctDesc: distinct values in strictly descending order -/

theorem mem_distinctDesc (l : List ℚ) (x : ℚ) : x ∈ distinctDesc l ↔ x ∈ l := by
  unfold distinctDesc
  rw [List.mem_reverse, (List.perm_insertionSort (· ≤ ·) l.dedup).mem_iff,
    List.mem_dedup]

theorem distinctDesc_nodup (l : List ℚ) : (distinctDesc l).Nodup := by
  unfold distinctDesc
  rw [List.nodup_reverse]
  exact ((List.perm_insertionSort (· ≤ ·) l.dedup).nodup_iff).mpr (List.nodup_dedup l)

theorem distinctDesc_sorted (l : List ℚ) : (distinctDesc l).Pairwise (· > ·) := by
  have hs : (l.dedup.insertionSort (· ≤ ·)).Pairwise (· ≤ ·) :=
    List.sorted_insertionSort (· ≤ ·) l.dedup
  have hn : (l.dedup.insertionSort (· ≤ ·)).Pairwise (· ≠ ·) :=
    ((List.perm_insertionSort (· ≤ ·) l.dedup).nodup_iff).mpr (List.nodup_dedup l)
  have := hs.and hn
  unfold distinctDesc
  rw [List.pairwise_reverse]
  exact this.imp (fun h => lt_of_le_of_ne h.1 h.2)

theorem distinctDesc_ne_nil (l : List ℚ) (h : l ≠ []) : distinctDesc l ≠ [] := by
  rcases List.exists_mem_of_ne_nil l h with ⟨x, hx⟩
  intro hd
  have := (mem_distinctDesc l x).mpr hx
  rw [hd] at this
  exact List.not_mem_nil x this

theorem sorted_asc_head_le (l : List ℚ) (hs : l.Pairwise (· ≤ ·)) :
    ∀ m, l.head? = some m → ∀ x ∈ l, m ≤ x := by
  cases l with
  | nil => intro m hm; cases hm
  | cons a t =>
    intro m hm x hx
    cases hm
    rcases List.mem_cons.mp hx with h | h
    · exact le_of_eq h.symm
    · exact (List.pairwise_cons.mp hs).1 x h

theorem distinctDesc_getLast_min (l : List ℚ) (h : l ≠ []) :
    ∃ m, (distinctDesc l).getLast? = some m ∧ ∀ x ∈ l, m ≤ x := by
  have hhead : (distinctDesc l).getLast? = (l.dedup.insertionSort (· ≤ ·)).head? := by
    unfold distinctDesc
    exact List.getLast?_reverse _
  have hne : distinctDesc l ≠ [] := distinctDesc_ne_nil l h
  rcases List.getLast?_eq_getLast _ hne with hlast
  refine ⟨(distinctDesc l).getLast hne, hlast, ?_⟩
  intro x hx
  apply sorted_asc_head_le (l.dedup.insertionSort (· ≤ ·))
    (List.sorted_insertionSort (· ≤ ·) l.dedup)
  · rw [← hhead]; exact hlast
  · rw [(List.perm_insertionSort (· ≤ ·) l.dedup).mem_iff, List.mem_dedup]
    exact hx

/-! ### dropIntermediate: a sublist preserving first and last -/

theorem interiorFilter_sublist (p : RocPoint) (l : List RocPoint) :
    (interiorFilter p l).Sublist l := by
  induction l generalizing p with
  | nil => simp [interiorFilter]
  | cons q tl ih =>
    cases tl with
    | nil => simp [interiorFilter]
    | cons r tl2 =>
      unfold interiorFilter
      by_cases hk : keepPoint p q r
      · rw [if_pos hk]
        exact List.Sublist.cons₂ q (ih q)
      · rw [if_neg hk]
        exact List.Sublist.cons q (ih q)

theorem interiorFilter_ne_nil (p : RocPoint) (l : List RocPoint) (h : l ≠ []) :
    interiorFilter p l ≠ [] := by
  induction l generalizing p with
  | nil => exact absurd rfl h
  | cons q tl ih =>
    cases tl with
    | nil => simp [interiorFilter]
    | cons r tl2 =>
      unfold interiorFilter
      by_cases hk : keepPoint p q r
      · rw [if_pos hk]; exact List.cons_ne_nil _ _
      · rw [if_neg hk]; exact ih q (List.cons_ne_nil _ _)

theorem interiorFilter_getLast? (p : RocPoint) (l : List RocPoint) :
    (interiorFilter p l).getLast? = l.getLast? := by
  induction l generalizing p with
  | nil => simp [interiorFilter]
  | cons q tl ih =>
    cases tl with
    | nil => simp [interiorFilter]
    | cons r tl2 =>
      unfold interiorFilter
      by_cases hk : keepPoint p q r
      · rw [if_pos hk]
        rw [getLast?_cons_ne_nil q _ (interiorFilter_ne_nil q (r :: tl2) (List.cons_ne_nil _ _))]
        rw [ih q]
        exact (getLast?_cons_ne_nil q _ (List.cons_ne_nil _ _)).symm
      · rw [if_neg hk, ih q]
        exact (getLast?_cons_ne_nil q _ (List.cons_ne_nil _ _)).symm

theorem dropIntermediate_sublist (l : List RocPoint) :
    (dropIntermediate l).Sublist l := by
  cases l with
  | nil => simp [dropIntermediate]
  | cons a rest =>
    unfold dropIntermediate
    exact List.Sublist.cons₂ a (interiorFilter_sublist a rest)

theorem dropIntermediate_getLast? (l : List RocPoint) :
    (dropIntermediate l).getLast? = l.getLast? := by
  cases l with
  | nil => rfl
  | cons a rest =>
    unfold dropIntermediate
    cases rest with
    | nil => simp [interiorFilter]
    | cons b tl =>
      show (a :: interiorFilter a (b :: tl)).getLast? = (a :: b :: tl).getLast?
      rw [getLast?_cons_ne_nil a _ (interiorFilter_ne_nil a (b :: tl) (List.cons_ne_nil _ _))]
      rw [interiorFilter_getLast? a (b :: tl)]
      exact (getLast?_cons_ne_nil a _ (List.cons_ne_nil _ _)).symm

theorem dropIntermediate_ne_nil (l : List RocPoint) (h : l ≠ []) :
    dropIntermediate l ≠ [] := by
  cases l with
  | nil => exact absurd rfl h
  | cons a rest => simp [dropIntermediate]

/-! ### Structure of the ROC points -/

theorem rawPoints_pairwise (labels : List ℕ) (scores : List ℚ) :
    (rawPoints labels scores).Pairwise
      (fun p q => q.thr < p.thr ∧ p.fps ≤ q.fps ∧ p.tps ≤ q.tps) := by
  unfold rawPoints
  rw [List.pairwise_map]
  refine (distinctDesc_sorted scores).imp ?_
  intro v w hvw
  refine ⟨hvw, ?_, ?_⟩ <;>
  · apply List.countP_mono_left
    intro p _ hp
    rw [Bool.and_eq_true] at hp ⊢
    refine ⟨hp.1, ?_⟩
    rw [decide_eq_true_eq] at hp ⊢
    exact le_trans (le_of_lt hvw) hp.2

theorem ptsOf_sublist (labels : List ℕ) (scores : List ℚ) :
    (ptsOf labels scores).Sublist (rawPoints labels scores) := by
  unfold ptsOf
  by_cases h : (rawPoints labels scores).length ≤ 2
  · rw [if_pos h]
  · rw [if_neg h]
    exact dropIntermediate_sublist _

theorem ptsOf_pairwise (labels : List ℕ) (scores : List ℚ) :
    (ptsOf labels scores).Pairwise
      (fun p q => q.thr < p.thr ∧ p.fps ≤ q.fps ∧ p.tps ≤ q.tps) :=
  List.Pairwise.sublist (ptsOf_sublist labels scores) (rawPoints_pairwise labels scores)

theorem ptsOf_ne_nil (labels : List ℕ) (scores : List ℚ) (h : scores ≠ []) :
    ptsOf labels scores ≠ [] := by
  have hraw : rawPoints labels scores ≠ [] := by
    unfold rawPoints
    simp only [ne_eq, List.map_eq_nil_iff]
    exact distinctDesc_ne_nil scores h
  unfold ptsOf
  by_cases hlen : (rawPoints labels scores).length ≤ 2
  · rw [if_pos hlen]; exact hraw
  · rw [if_neg hlen]; exact dropIntermediate_ne_nil _ hraw

theorem ptsOf_getLast? (labels : List ℕ) (scores : List ℚ) :
    (ptsOf labels scores).getLast? = (rawPoints labels scores).getLast? := by
  unfold ptsOf
  by_cases hlen : (rawPoints labels scores).length ≤ 2
  · rw [if_pos hlen]
  · rw [if_neg hlen]; exact dropIntermediate_getLast? _

theorem countP_zip_replicate (a b : ℕ) (l : List ℚ) (g : ℚ → Bool) :
    ((List.replicate l.length a).zip l).countP (fun p => p.1 == b && g p.2)
      = if a = b then l.countP g else 0 := by
  induction l with
  | nil => simp
  | cons x xs ih =>
    simp only [List.length_cons, List.replicate_succ, List.zip_cons_cons,
      List.countP_cons, ih]
    by_cases hab : a = b
    · subst hab
      by_cases hg : g x <;> simp [List.countP_cons, hg]
    · have hb : (a == b) = false := beq_eq_false_iff_ne.mpr hab
      simp [hb, hab]

theorem labels_zip_split (hs ls : List ℚ) :
    (real_labels hs ls).zip (predicted_probs hs ls)
      = ((List.replicate hs.length 0).zip hs) ++ ((List.replicate ls.length 1).zip ls) := by
  unfold real_labels predicted_probs
  exact List.zip_append (by simp)

theorem countP_pairs_label (hs ls : List ℚ) (b : ℕ) (g : ℚ → Bool) :
    ((real_labels hs ls).zip (predicted_probs hs ls)).countP
        (fun p => p.1 == b && g p.2)
      = (if 0 = b then hs.countP g else 0) + (if 1 = b then ls.countP g else 0) := by
  rw [labels_zip_split, List.countP_append, countP_zip_replicate, countP_zip_replicate]

theorem rawPoints_getLast?_min (labels : List ℕ) (scores : List ℚ)
    (h : scores ≠ []) :
    ∃ m, (∀ x ∈ scores, m ≤ x) ∧
      (rawPoints labels scores).getLast? = some
        ⟨(labels.zip scores).countP (fun p => p.1 == 0 && decide (m ≤ p.2)),
         (labels.zip scores).countP (fun p => p.1 == 1 && decide (m ≤ p.2)), m⟩ := by
  obtain ⟨m, hlast, hmin⟩ := distinctDesc_getLast_min scores h
  refine ⟨m, hmin, ?_⟩
  unfold rawPoints
  rw [List.getLast?_map, hlast]
  rfl

theorem lastD_cons_ne_nil (a : ℕ) (l : List ℕ) (d : ℕ) (h : l ≠ []) :
    lastD (a :: l) d = lastD l d := by
  unfold lastD
  rw [getLast?_cons_ne_nil a l h]

theorem nOf_eq (hs ls : List ℚ) (h : predicted_probs hs ls ≠ []) :
    nOf (real_labels hs ls) (predicted_probs hs ls) = hs.length := by
  obtain ⟨m, hmin, hlast⟩ := rawPoints_getLast?_min (real_labels hs ls)
    (predicted_probs hs ls) h
  have hne : ptsOf (real_labels hs ls) (predicted_probs hs ls) ≠ [] :=
    ptsOf_ne_nil _ _ h
  unfold nOf fpsOf
  rw [lastD_cons_ne_nil _ _ _ (by simpa using hne)]
  unfold lastD
  rw [List.getLast?_map, ptsOf_getLast? _ _, hlast]
  simp only [Option.map_some', Option.getD_some]
  show ((real_labels hs ls).zip (predicted_probs hs ls)).countP
    (fun p => p.1 == 0 && decide (m ≤ p.2)) = hs.length
  rw [List.countP_congr (q := fun p : ℕ × ℚ => p.1 == 0 && (fun _ : ℚ => true) p.2) ?_]
  · rw [countP_pairs_label hs ls 0 (fun _ => true)]
    simp [List.countP_true]
  · intro p hp
    have hp2 : p.2 ∈ predicted_probs hs ls := (List.of_mem_zip hp).2
    simp [decide_eq_true_eq.mpr (hmin p.2 hp2)]

theorem pOf_eq (hs ls : List ℚ) (h : predicted_probs hs ls ≠ []) :
    pOf (real_labels hs ls) (predicted_probs hs ls) = ls.length := by
  obtain ⟨m, hmin, hlast⟩ := rawPoints_getLast?_min (real_labels hs ls)
    (predicted_probs hs ls) h
  have hne : ptsOf (real_labels hs ls) (predicted_probs hs ls) ≠ [] :=
    ptsOf_ne_nil _ _ h
  unfold pOf tpsOf
  rw [lastD_cons_ne_nil _ _ _ (by simpa using hne)]
  unfold lastD
  rw [List.getLast?_map, ptsOf_getLast? _ _, hlast]
  simp only [Option.map_some', Option.getD_some]
  show ((real_labels hs ls).zip (predicted_probs hs ls)).countP
    (fun p => p.1 == 1 && decide (m ≤ p.2)) = ls.length
  rw [List.countP_congr (q := fun p : ℕ × ℚ => p.1 == 1 && (fun _ : ℚ => true) p.2) ?_]
  · rw [countP_pairs_label hs ls 1 (fun _ => true)]
    simp [List.countP_true]
  · intro p hp
    have hp2 : p.2 ∈ predicted_probs hs ls := (List.of_mem_zip hp).2
    simp [decide_eq_true_eq.mpr (hmin p.2 hp2)]

/-! ### sklearn auc never raises on a ROC curve -/

theorem zipWith_nsub_map_some (a b : List ℚ) :
    List.zipWith nsub (a.map some) (b.map some)
      = (List.zipWith (fun x y => x - y) a b).map some := by
  induction a generalizing b with
  | nil => simp
  | cons x xs ih => cases b <;> simp [nsub, ih]

theorem diffs_nonneg (l : List ℚ) (hl : l.Pairwise (· ≤ ·)) :
    ∀ d ∈ List.zipWith (fun a b => a - b) l.tail l, 0 ≤ d := by
  induction l with
  | nil => simp
  | cons x xs ih =>
    cases xs with
    | nil => simp
    | cons y ys =>
      intro d hd
      simp only [List.tail_cons, List.zipWith_cons_cons] at hd
      rcases List.mem_cons.mp hd with hd' | hd'
      · subst hd'
        have hxy : x ≤ y := (List.pairwise_cons.mp hl).1 y (by simp)
        linarith
      · have := ih (List.pairwise_cons.mp hl).2
        simp only [List.tail_cons] at this
        exact this d hd'

theorem zipWith_nsub_all_none (x : List NanQ) (hx : ∀ e ∈ x, e = none) :
    ∀ d ∈ List.zipWith nsub x.tail x, d = none := by
  induction x with
  | nil => simp
  | cons a t ih =>
    cases t with
    | nil => simp
    | cons b ts =>
      intro d hd
      simp only [List.tail_cons, List.zipWith_cons_cons] at hd
      rcases List.mem_cons.mp hd with hd' | hd'
      · subst hd'
        have hb : b = none := hx b (by simp)
        subst hb
        rfl
      · have := ih (fun e he => hx e (List.mem_of_mem_tail he))
        simp only [List.tail_cons] at this
        exact this d hd'

theorem npAuc_ok_of_shape (x y : List NanQ) (hlen : 2 ≤ x.length)
    (hx : (∃ l : List ℚ, x = l.map some ∧ l.Pairwise (· ≤ ·)) ∨ ∀ e ∈ x, e = none) :
    npAuc x y = .ok (ntrapz y x) := by
  unfold npAuc
  rw [if_neg (by omega)]
  have hany : (List.zipWith nsub x.tail x).any (fun d => nLt d (some 0)) = false := by
    rw [List.any_eq_false]
    intro d hd
    rcases hx with ⟨l, hxl, hsort⟩ | hnone
    · subst hxl
      rw [← List.map_tail, zipWith_nsub_map_some] at hd
      rcases List.mem_map.mp hd with ⟨d0, hd0, hd0e⟩
      subst hd0e
      have : 0 ≤ d0 := diffs_nonneg l hsort d0 hd0
      simp [nLt]
      linarith
    · have : d = none := zipWith_nsub_all_none x hnone d hd
      subst this
      simp [nLt]
  simp [hany]

theorem fpsOf_pairwise_le (labels : List ℕ) (scores : List ℚ) :
    (fpsOf labels scores).Pairwise (· ≤ ·) := by
  unfold fpsOf
  rw [List.pairwise_cons]
  constructor
  · intro a _; exact Nat.zero_le a
  · rw [List.pairwise_map]
    exact (ptsOf_pairwise labels scores).imp (fun h => h.2.1)

theorem tpsOf_pairwise_le (labels : List ℕ) (scores : List ℚ) :
    (tpsOf labels scores).Pairwise (· ≤ ·) := by
  unfold tpsOf
  rw [List.pairwise_cons]
  constructor
  · intro a _; exact Nat.zero_le a
  · rw [List.pairwise_map]
    exact (ptsOf_pairwise labels scores).imp (fun h => h.2.2)

theorem counts_div_shape (counts : List ℕ) (hc : counts.Pairwise (· ≤ ·)) (den : ℕ)
    (x : List NanQ)
    (hx : x = if den = 0 then counts.map (fun _ => (none : NanQ))
          else counts.map (fun (f : ℕ) => some ((f : ℚ) / (den : ℚ)))) :
    (∃ l : List ℚ, x = l.map some ∧ l.Pairwise (· ≤ ·)) ∨ ∀ e ∈ x, e = none := by
  by_cases hden : den = 0
  · right
    rw [hx, if_pos hden]
    intro e he
    rcases List.mem_map.mp he with ⟨_, _, he'⟩
    exact he'.symm
  · left
    refine ⟨counts.map (fun (f : ℕ) => (f : ℚ) / (den : ℚ)), ?_, ?_⟩
    · rw [hx, if_neg hden, List.map_map]
      rfl
    · have hden' : (0 : ℚ) < (den : ℚ) := by
        have : 0 < den := Nat.pos_of_ne_zero hden
        exact_mod_cast this
      refine List.Pairwise.map _ ?_ hc
      intro a b hab
      exact (div_le_div_iff_of_pos_right hden').mpr (by exact_mod_cast hab)

theorem npAuc_rocCurveBody_ok (labels : List ℕ) (scores : List ℚ)
    (h : scores ≠ []) :
    ∃ a, npAuc (rocCurveBody labels scores).fpr (rocCurveBody labels scores).tpr
      = .ok a := by
  have hne : ptsOf labels scores ≠ [] := ptsOf_ne_nil labels scores h
  have hfl : 0 < (ptsOf labels scores).length := List.length_pos.mpr hne
  have hlen : 2 ≤ (rocCurveBody labels scores).fpr.length := by
    simp only [rocCurveBody]
    by_cases hn : nOf labels scores = 0
    · rw [if_pos hn, List.length_map]
      simp only [fpsOf, List.length_cons, List.length_map]
      omega
    · rw [if_neg hn, List.length_map]
      simp only [fpsOf, List.length_cons, List.length_map]
      omega
  refine ⟨_, npAuc_ok_of_shape _ _ hlen ?_⟩
  exact counts_div_shape (fpsOf labels scores) (fpsOf_pairwise_le labels scores)
    (nOf labels scores) _ rfl

/-! ### Unfolding the two metric pipelines on nonempty input -/

theorem calibrateOn_eq (labels : List ℕ) (scores : List ℚ) (h : scores ≠ []) :
    ∃ a, npAuc (rocCurveBody labels scores).fpr (rocCurveBody labels scores).tpr
        = .ok a ∧
      calibrateOn labels scores = some
        ⟨a, chosenThresh labels scores,
         confusionMatrix labels (scores.map (binarize (chosenThresh labels scores))),
         precisionScore labels (scores.map (binarize (chosenThresh labels scores))),
         recallScore labels (scores.map (binarize (chosenThresh labels scores))),
         f1Score labels (scores.map (binarize (chosenThresh labels scores))),
         accuracyScore labels (scores.map (binarize (chosenThresh labels scores)))⟩ := by
  obtain ⟨a, ha⟩ := npAuc_rocCurveBody_ok labels scores h
  refine ⟨a, ha, ?_⟩
  unfold calibrateOn rocCurve
  rw [if_neg (by simpa [List.isEmpty_iff] using h)]
  rw [Option.some_bind, ha]
  rfl

theorem evaluateOn_eq (labels : List ℕ) (scores : List ℚ) (t : Thresh)
    (h : scores ≠ []) :
    ∃ a, npAuc
        (rocCurveBody labels ((scores.map (binarize t)).map (fun (n : ℕ) => (n : ℚ)))).fpr
        (rocCurveBody labels ((scores.map (binarize t)).map (fun (n : ℕ) => (n : ℚ)))).tpr
        = .ok a ∧
      evaluateOn labels scores t = some
        ⟨a, t, confusionMatrix labels (scores.map (binarize t)),
         precisionScore labels (scores.map (binarize t)),
         recallScore labels (scores.map (binarize t)),
         f1Score labels (scores.map (binarize t)),
         accuracyScore labels (scores.map (binarize t))⟩ := by
  have hne : ((scores.map (binarize t)).map (fun (n : ℕ) => (n : ℚ))) ≠ [] := by
    simpa using h
  obtain ⟨a, ha⟩ := npAuc_rocCurveBody_ok labels
    ((scores.map (binarize t)).map (fun (n : ℕ) => (n : ℚ))) hne
  refine ⟨a, ha, ?_⟩
  have hcond : ((scores.map (binarize t)).map (fun (n : ℕ) => (n : ℚ))).isEmpty = false := by
    simp [List.isEmpty_iff, List.map_eq_nil_iff, h]
  unfold evaluateOn rocCurve
  simp only [hcond, Bool.false_eq_true, if_false, Option.some_bind, ha]

theorem thrOf_pairwise (labels : List ℕ) (scores : List ℚ) :
    (thrOf labels scores).Pairwise threshGt := by
  unfold thrOf
  rw [List.pairwise_cons]
  constructor
  · intro a ha
    rcases List.mem_map.mp ha with ⟨p, _, hp⟩
    rw [← hp]
    trivial
  · rw [List.pairwise_map]
    exact (ptsOf_pairwise labels scores).imp (fun h => h.1)

/-! ### matchCount bounds -/

theorem matchCount_le_left {α : Type} [DecidableEq α] (xs ys : List α) :
    matchCount xs ys ≤ xs.length := by
  induction xs generalizing ys with
  | nil => simp [matchCount]
  | cons x xs ih =>
    unfold matchCount
    by_cases hx : x ∈ ys
    · rw [if_pos hx]
      have := ih (ys.erase x)
      simp only [List.length_cons]
      omega
    · rw [if_neg hx]
      have := ih ys
      simp only [List.length_cons]
      omega

theorem matchCount_le_right {α : Type} [DecidableEq α] (xs ys : List α) :
    matchCount xs ys ≤ ys.length := by
  induction xs generalizing ys with
  | nil => simp [matchCount]
  | cons x xs ih =>
    unfold matchCount
    by_cases hx : x ∈ ys
    · rw [if_pos hx]
      have h1 := ih (ys.erase x)
      have h2 : (ys.erase x).length = ys.length - 1 := List.length_erase_of_mem hx
      have h3 : 0 < ys.length := List.length_pos.mpr (List.ne_nil_of_mem hx)
      omega
    · rw [if_neg hx]
      exact ih ys

/-! ### Option foldlM helpers -/

theorem foldlM_option_fail {α β : Type} (g : β → α → Option β) (x : α)
    (hx : ∀ b, g b x = none) :
    ∀ (pre rest : List α) (init : β), (pre ++ x :: rest).foldlM g init = none := by
  intro pre
  induction pre with
  | nil =>
    intro rest init
    simp [List.foldlM_cons, hx]
  | cons p ps ih =>
    intro rest init
    rw [List.cons_append, List.foldlM_cons]
    cases hg : g init p with
    | none => rfl
    | some b => exact ih rest b

theorem foldlM_option_skip {α β : Type} (g : β → α → Option β) (x : α)
    (hx : ∀ b, g b x = some b) :
    ∀ (pre rest : List α) (init : β),
      (pre ++ x :: rest).foldlM g init = (pre ++ rest).foldlM g init := by
  intro pre
  induction pre with
  | nil =>
    intro rest init
    simp [List.foldlM_cons, hx]
  | cons p ps ih =>
    intro rest init
    rw [List.cons_append, List.cons_append, List.foldlM_cons, List.foldlM_cons]
    cases hg : g init p with
    | none => rfl
    | some b => exact ih rest b

/-! ### Claim theorems -/

/-- C1 (counterexample): the spec example — one absent-score item plus one
valid item per label — does NOT yield populations of size one per label:
`process_data` appends the null score, so both populations have size two. -/
theorem c1_absent_scores_population_sizes :
    (process_data (fun _ => none)
      [⟨"", some "x y", "human", none⟩, ⟨"a b", some "a b", "human", none⟩,
       ⟨"", some "x y", "llm", none⟩, ⟨"c d", some "c d", "llm", none⟩]).map
      (fun p => (p.human.length, p.llm.length)) = some (2, 2) ∧
    some ((2 : ℕ), (2 : ℕ)) ≠ some ((1 : ℕ), (1 : ℕ)) := by
  constructor
  · with_unfolding_all rfl
  · decide

/-- C1 (amended): an item whose scoring fails is not excluded from the
populations: the grouping step of `process_data` (lines 158-162) appends the
null score value to the population of its label. -/
theorem absent_score_appended_as_null (corr : String → Option String)
    (acc : Preds) (it : Item) (hg : truthy it.gec_text = true)
    (hf : score it.text (it.gec_text.getD "") = .error ()) :
    (it.label = "human" →
      processItem corr acc it = some { acc with human := acc.human ++ [none] }) ∧
    (it.label = "llm" →
      processItem corr acc it = some { acc with llm := acc.llm ++ [none] }) := by
  unfold processItem
  simp only [hg, if_true]
  rw [hf]
  constructor
  · intro hl
    rw [if_pos hl]
    rfl
  · intro hl
    have hh : ¬ (it.label = "human") := by rw [hl]; decide
    rw [if_neg hh, if_pos hl]
    rfl

/-- C1 (witness): the amended per-item statement at a concrete failing item. -/
theorem absent_score_appended_as_null_witness :
    ((⟨"", some "x y", "human", none⟩ : Item).label = "human" →
      processItem (fun _ => none) ⟨[], []⟩ ⟨"", some "x y", "human", none⟩
        = some { (⟨[], []⟩ : Preds) with
            human := ([] : List (Option ℚ)) ++ [none] }) ∧
    ((⟨"", some "x y", "human", none⟩ : Item).label = "llm" →
      processItem (fun _ => none) ⟨[], []⟩ ⟨"", some "x y", "human", none⟩
        = some { (⟨[], []⟩ : Preds) with
            llm := ([] : List (Option ℚ)) ++ [none] }) :=
  absent_score_appended_as_null (fun _ => none) ⟨[], []⟩
    ⟨"", some "x y", "human", none⟩ (by decide) (by with_unfolding_all rfl)

/-- C3 (counterexample): the scorer fails on the identical pair of empty
strings instead of returning 1. -/
theorem c3_score_empty_identical_fails :
    score "" "" = .error () ∧ (Except.error () : Except Unit ℚ) ≠ .ok 1 := by
  constructor
  · with_unfolding_all rfl
  · intro h
    cases h

/-- C3 (amended): every score is in `[0, 1]` or the scorer fails, and every
pair of identical NON-EMPTY strings scores exactly 1 (identical empty
strings fail, since the scorer rejects empty texts). -/
theorem score_bounded_and_identity :
    (∀ o c : String, score o c = .error () ∨
      ∃ q, score o c = .ok q ∧ 0 ≤ q ∧ q ≤ 1) ∧
    (∀ s : String, s ≠ "" → score s s = .ok 1) := by
  constructor
  · intro o c
    unfold score
    by_cases h1 : o = "" ∨ c = ""
    · rw [if_pos h1]; exact Or.inl rfl
    · rw [if_neg h1]
      by_cases h2 : o = c
      · rw [if_pos h2]
        exact Or.inr ⟨1, rfl, by norm_num, by norm_num⟩
      · rw [if_neg h2]
        by_cases h3 : (bigramsOf (tokenize o)).isEmpty = true ∨
            (bigramsOf (tokenize c)).isEmpty = true
        · rw [if_pos h3]
          exact Or.inr ⟨0, rfl, le_refl 0, by norm_num⟩
        · rw [if_neg h3]
          refine Or.inr ⟨_, rfl, ?_, ?_⟩
          · positivity
          · have hbo : (bigramsOf (tokenize o)).length ≠ 0 := by
              intro hz
              exact h3 (Or.inl (by simpa [List.isEmpty_iff, List.length_eq_zero] using hz))
            have hbc : (bigramsOf (tokenize c)).length ≠ 0 := by
              intro hz
              exact h3 (Or.inr (by simpa [List.isEmpty_iff, List.length_eq_zero] using hz))
            have hm1 := matchCount_le_left (bigramsOf (tokenize o)) (bigramsOf (tokenize c))
            have hm2 := matchCount_le_right (bigramsOf (tokenize o)) (bigramsOf (tokenize c))
            have hden : (0 : ℚ) < ((bigramsOf (tokenize o)).length : ℚ)
                + ((bigramsOf (tokenize c)).length : ℚ) := by
              have : 0 < (bigramsOf (tokenize o)).length := Nat.pos_of_ne_zero hbo
              have h2' : (0:ℚ) < ((bigramsOf (tokenize o)).length : ℚ) := by exact_mod_cast this
              have h3' : (0:ℚ) ≤ ((bigramsOf (tokenize c)).length : ℚ) := by positivity
              linarith
            rw [div_le_one hden]
            have hnat : 2 * matchCount (bigramsOf (tokenize o)) (bigramsOf (tokenize c))
                ≤ (bigramsOf (tokenize o)).length + (bigramsOf (tokenize c)).length := by
              omega
            calc (2 : ℚ) * (matchCount (bigramsOf (tokenize o)) (bigramsOf (tokenize c)) : ℚ)
                = ((2 * matchCount (bigramsOf (tokenize o)) (bigramsOf (tokenize c)) : ℕ) : ℚ) := by
                  push_cast; ring
              _ ≤ _ := by exact_mod_cast hnat
  · intro s hs
    unfold score
    rw [if_neg (by simp [hs]), if_pos rfl]

/-- C3 (witness): identical non-empty strings score exactly 1. -/
theorem score_bounded_and_identity_witness : score "ab" "ab" = .ok 1 :=
  score_bounded_and_identity.2 "ab" (by decide)

/-- C9 (counterexample): with two test files where the first fails during
processing (missing correction leads to a KeyError), the whole test loop
fails and the second file — which succeeds on its own — is never reported. -/
theorem c9_first_file_failure_kills_second :
    runTests (fun _ => none) (Thresh.val (1/2))
      [[⟨"t", none, "human", none⟩],
       [⟨"a b", some "a b", "human", none⟩, ⟨"c", some "c", "llm", none⟩]] = none ∧
    (runTests (fun _ => none) (Thresh.val (1/2))
      [[⟨"a b", some "a b", "human", none⟩, ⟨"c", some "c", "llm", none⟩]]).isSome
      = true := by
  constructor
  · with_unfolding_all rfl
  · with_unfolding_all rfl

/-- C9 (amended): a test file whose processing fails aborts the whole test
loop of `experiment`: no report is produced for any file, including the
remaining ones (the loop body has no exception handling). -/
theorem file_failure_aborts_remaining (corr : String → Option String)
    (t : Thresh) (pre : List (List Item)) (f : List Item)
    (rest : List (List Item)) (hf : process_data corr f = none) :
    runTests corr t (pre ++ f :: rest) = none := by
  unfold runTests
  apply foldlM_option_fail
  intro b
  simp [hf]

/-- C9 (witness): the amended statement at the concrete two-file input. -/
theorem file_failure_aborts_remaining_witness :
    runTests (fun _ => none) (Thresh.val (1/2))
      ([(⟨"t", none, "human", none⟩ : Item)] ::
        [[(⟨"a b", some "a b", "human", none⟩ : Item),
          ⟨"c", some "c", "llm", none⟩]]) = none :=
  file_failure_aborts_remaining (fun _ => none) (Thresh.val (1/2)) []
    [⟨"t", none, "human", none⟩]
    [[⟨"a b", some "a b", "human", none⟩, ⟨"c", some "c", "llm", none⟩]]
    (by with_unfolding_all rfl)

/-- C10: an item whose label is neither "human" nor "llm" is silently
skipped by the grouping step: removing it from the input leaves the result
of `process_data` unchanged, and no error is raised for it. -/
theorem unknown_label_silently_skipped (corr : String → Option String)
    (xs ys : List Item) (it : Item) (h1 : it.label ≠ "human")
    (h2 : it.label ≠ "llm") :
    process_data corr (xs ++ it :: ys) = process_data corr (xs ++ ys) := by
  have hskip : ∀ acc, processItem corr acc it = some acc := by
    intro acc
    unfold processItem
    rw [if_neg h1, if_neg h2]
  unfold process_data
  exact foldlM_option_skip (processItem corr) it hskip xs ys ⟨[], []⟩

/-- C10 (witness): a concrete unknown-label item contributes nothing. -/
theorem unknown_label_silently_skipped_witness :
    process_data (fun _ => none)
      ([] ++ (⟨"x", some "x", "alien", none⟩ : Item) ::
        [(⟨"a b", some "a b", "human", none⟩ : Item)])
      = process_data (fun _ => none)
        ([] ++ [(⟨"a b", some "a b", "human", none⟩ : Item)]) :=
  unknown_label_silently_skipped (fun _ => none) []
    [⟨"a b", some "a b", "human", none⟩] ⟨"x", some "x", "alien", none⟩
    (by decide) (by decide)

/-- C2 (counterexample): `get_roc_metrics` with an empty human population
and a non-empty llm population returns a report rather than failing. -/
theorem c2_calibrate_single_empty_returns_report :
    (get_roc_metrics [] [1/2, 3/5]).isSome = true := by
  with_unfolding_all rfl

/-- C2 (amended): `get_roc_metrics` performs no emptiness check and has no
degenerate-population error: it returns a report exactly when at least one
input sequence is non-empty; for the spec examples the reports it returns
carry a NaN AUC and the `inf` threshold, and only the both-empty call
fails. -/
theorem calibrate_returns_report_iff_not_both_empty :
    (∀ hs ls : List ℚ, (get_roc_metrics hs ls).isSome = !(hs ++ ls).isEmpty) ∧
    (get_roc_metrics [] [1/2, 3/5]).map Report.roc_auc = some none ∧
    (get_roc_metrics [] [1/2, 3/5]).map Report.optimal_threshold
      = some Thresh.pinf ∧
    (get_roc_metrics [1/10] []).map Report.roc_auc = some none ∧
    (get_roc_metrics [1/10] []).map Report.optimal_threshold
      = some Thresh.pinf ∧
    get_roc_metrics ([] : List ℚ) [] = none := by
  refine ⟨?_, ?_, ?_, ?_, ?_, ?_⟩
  · intro hs ls
    by_cases h : predicted_probs hs ls = []
    · have hhl : hs ++ ls = [] := h
      unfold get_roc_metrics calibrateOn rocCurve
      rw [if_pos (by simpa [List.isEmpty_iff] using h)]
      simp [hhl]
    · obtain ⟨a, _, hc⟩ := calibrateOn_eq (real_labels hs ls)
        (predicted_probs hs ls) h
      unfold get_roc_metrics
      rw [hc]
      have hhl : ¬ (hs ++ ls = []) := h
      simp [List.isEmpty_iff, hhl]
  · with_unfolding_all rfl
  · with_unfolding_all rfl
  · with_unfolding_all rfl
  · with_unfolding_all rfl
  · with_unfolding_all rfl

/-- C5: both metric functions build their ROC input with the fixed
convention: the label vector is one 0 per human score followed by one 1 per
llm score, the score vector is the human scores followed by the llm scores
in matching order, and each function is exactly its generic core applied to
these two vectors. -/
theorem roc_input_ordering_convention (hs ls : List ℚ) :
    real_labels hs ls
      = List.replicate hs.length 0 ++ List.replicate ls.length 1 ∧
    predicted_probs hs ls = hs ++ ls ∧
    (∀ i, (real_labels hs ls).getD i 1 = if i < hs.length then 0 else 1) ∧
    (∀ i, (predicted_probs hs ls).getD i 0
      = if i < hs.length then hs.getD i 0 else ls.getD (i - hs.length) 0) ∧
    get_roc_metrics hs ls
      = calibrateOn (real_labels hs ls) (predicted_probs hs ls) ∧
    (∀ t, get_roc_metrics_with_threshold hs ls t
      = evaluateOn (real_labels hs ls) (predicted_probs hs ls) t) := by
  refine ⟨rfl, rfl, ?_, ?_, rfl, fun t => rfl⟩
  · intro i
    unfold real_labels
    by_cases hi : i < hs.length
    · rw [getD_append_left _ _ _ _ (by simpa using hi), getD_replicate]
    · rw [getD_append_right _ _ _ _ (by simpa using hi), if_neg hi]
      rw [List.length_replicate, getD_replicate]
      by_cases hj : i - hs.length < ls.length <;> simp [hj]
  · intro i
    unfold predicted_probs
    by_cases hi : i < hs.length
    · rw [getD_append_left _ _ _ _ hi, if_pos hi]
    · rw [getD_append_right _ _ _ _ (le_of_not_lt hi), if_neg hi]

/-- C8: the hard prediction rule used at lines 75 and 100 classifies a
score as the positive (llm) class exactly when it is at least the
threshold; a score exactly equal to the threshold is classified as llm, and
no score reaches the `inf` threshold. -/
theorem prediction_rule_threshold_ge :
    (∀ t s : ℚ, (binarize (Thresh.val t) s = 1 ↔ t ≤ s) ∧
      (binarize (Thresh.val t) s = 0 ↔ s < t)) ∧
    (∀ s : ℚ, binarize (Thresh.val s) s = 1) ∧
    (∀ s : ℚ, binarize Thresh.pinf s = 0) := by
  refine ⟨fun t s => ⟨?_, ?_⟩, fun s => ?_, fun s => ?_⟩
  · simp [binarize, threshGe]
  · simp [binarize, threshGe, not_le]
  · simp [binarize, threshGe]
  · simp [binarize, threshGe]

/-- C4: evaluating with the threshold returned by calibration on the same
populations reproduces the confusion matrix, precision, recall, F1 and
accuracy that calibration itself reported. -/
theorem evaluate_reproduces_calibrate (hs ls : List ℚ) (hh : hs ≠ [])
    (_hl : ls ≠ []) :
    (get_roc_metrics hs ls).isSome = true ∧
    (get_roc_metrics hs ls).bind (fun r =>
      (get_roc_metrics_with_threshold hs ls r.optimal_threshold).map
        (fun e => (e.conf_matrix, e.precision, e.recall_, e.f1, e.accuracy)))
    = (get_roc_metrics hs ls).map (fun r =>
        (r.conf_matrix, r.precision, r.recall_, r.f1, r.accuracy)) := by
  have hp : predicted_probs hs ls ≠ [] := by
    unfold predicted_probs
    simp [hh]
  obtain ⟨a, -, hc⟩ := calibrateOn_eq (real_labels hs ls)
    (predicted_probs hs ls) hp
  obtain ⟨b, -, he⟩ := evaluateOn_eq (real_labels hs ls) (predicted_probs hs ls)
    (chosenThresh (real_labels hs ls) (predicted_probs hs ls)) hp
  constructor
  · unfold get_roc_metrics
    rw [hc]
    rfl
  · unfold get_roc_metrics get_roc_metrics_with_threshold
    rw [hc]
    simp only [Option.some_bind, Option.map_some']
    rw [he]
    rfl

/-- C4 (witness): the reproduction property at a concrete pair of
populations. -/
theorem evaluate_reproduces_calibrate_witness :
    (get_roc_metrics [9/10] [1/10]).isSome = true ∧
    (get_roc_metrics [9/10] [1/10]).bind (fun r =>
      (get_roc_metrics_with_threshold [9/10] [1/10] r.optimal_threshold).map
        (fun e => (e.conf_matrix, e.precision, e.recall_, e.f1, e.accuracy)))
    = (get_roc_metrics [9/10] [1/10]).map (fun r =>
        (r.conf_matrix, r.precision, r.recall_, r.f1, r.accuracy)) :=
  evaluate_reproduces_calibrate [9/10] [1/10] (List.cons_ne_nil _ _)
    (List.cons_ne_nil _ _)

theorem nodup_le_two_of_bool (l : List ℚ) (hn : l.Nodup)
    (hb : ∀ x ∈ l, x = 0 ∨ x = 1) : l.length ≤ 2 := by
  match l with
  | [] => simp
  | [a] => simp
  | [a, b] => simp
  | a :: b :: c :: rest =>
    exfalso
    simp only [List.nodup_cons, List.mem_cons] at hn
    rcases hb a (by simp) with ha | ha <;>
      rcases hb b (by simp) with hb' | hb' <;>
      rcases hb c (by simp) with hc | hc <;>
      simp_all

/-- C7: under a fixed threshold, the reported AUC is the sklearn AUC of the
ROC curve computed over the binarized hard 0/1 predictions — not over the
raw scores — and that post-binarization curve has at most three points (the
prepended origin plus at most two distinct prediction values). -/
theorem evaluate_auc_over_binarized (hs ls : List ℚ) (t : Thresh)
    (h : predicted_probs hs ls ≠ []) :
    ∃ (a : NanQ) (r : Report),
      npAuc
        (rocCurveBody (real_labels hs ls)
          (((predicted_probs hs ls).map (binarize t)).map (fun (n : ℕ) => (n : ℚ)))).fpr
        (rocCurveBody (real_labels hs ls)
          (((predicted_probs hs ls).map (binarize t)).map (fun (n : ℕ) => (n : ℚ)))).tpr
        = .ok a ∧
      get_roc_metrics_with_threshold hs ls t = some r ∧
      r.roc_auc = a ∧
      (thrOf (real_labels hs ls)
        (((predicted_probs hs ls).map (binarize t)).map (fun (n : ℕ) => (n : ℚ)))).length
        ≤ 3 := by
  obtain ⟨a, ha, he⟩ := evaluateOn_eq (real_labels hs ls)
    (predicted_probs hs ls) t h
  refine ⟨a, ⟨a, t,
    confusionMatrix (real_labels hs ls) ((predicted_probs hs ls).map (binarize t)),
    precisionScore (real_labels hs ls) ((predicted_probs hs ls).map (binarize t)),
    recallScore (real_labels hs ls) ((predicted_probs hs ls).map (binarize t)),
    f1Score (real_labels hs ls) ((predicted_probs hs ls).map (binarize t)),
    accuracyScore (real_labels hs ls) ((predicted_probs hs ls).map (binarize t))⟩,
    ha, ?_, rfl, ?_⟩
  · unfold get_roc_metrics_with_threshold
    exact he
  · have hsub := ptsOf_sublist (real_labels hs ls)
      (((predicted_probs hs ls).map (binarize t)).map (fun (n : ℕ) => (n : ℚ)))
    have hraw : (rawPoints (real_labels hs ls)
        (((predicted_probs hs ls).map (binarize t)).map (fun (n : ℕ) => (n : ℚ)))).length
        = (distinctDesc (((predicted_probs hs ls).map (binarize t)).map
            (fun (n : ℕ) => (n : ℚ)))).length := by
      unfold rawPoints
      rw [List.length_map]
    have hdd : (distinctDesc (((predicted_probs hs ls).map (binarize t)).map
        (fun (n : ℕ) => (n : ℚ)))).length ≤ 2 := by
      apply nodup_le_two_of_bool
      · exact distinctDesc_nodup _
      · intro x hx
        rw [mem_distinctDesc] at hx
        rcases List.mem_map.mp hx with ⟨n, hn, hnx⟩
        rcases List.mem_map.mp hn with ⟨s, _, hsx⟩
        rw [← hnx, ← hsx]
        unfold binarize
        by_cases hts : threshGe s t
        · right; rw [if_pos hts]; norm_num
        · left; rw [if_neg hts]; norm_num
    unfold thrOf
    rw [List.length_cons, List.length_map]
    have := hsub.length_le
    omega

/-- C7 (witness): the fixed-threshold AUC statement at a concrete input. -/
theorem evaluate_auc_over_binarized_witness :
    ∃ (a : NanQ) (r : Report),
      npAuc
        (rocCurveBody (real_labels [1/2] [3/4])
          (((predicted_probs [1/2] [3/4]).map (binarize (Thresh.val (1/2)))).map
            (fun (n : ℕ) => (n : ℚ)))).fpr
        (rocCurveBody (real_labels [1/2] [3/4])
          (((predicted_probs [1/2] [3/4]).map (binarize (Thresh.val (1/2)))).map
            (fun (n : ℕ) => (n : ℚ)))).tpr
        = .ok a ∧
      get_roc_metrics_with_threshold [1/2] [3/4] (Thresh.val (1/2)) = some r ∧
      r.roc_auc = a ∧
      (thrOf (real_labels [1/2] [3/4])
        (((predicted_probs [1/2] [3/4]).map (binarize (Thresh.val (1/2)))).map
          (fun (n : ℕ) => (n : ℚ)))).length ≤ 3 :=
  evaluate_auc_over_binarized [1/2] [3/4] (Thresh.val (1/2))
    (List.cons_ne_nil _ _)

theorem rocCurveBody_fpr_of_ne (labels : List ℕ) (scores : List ℚ)
    (hn : nOf labels scores ≠ 0) :
    (rocCurveBody labels scores).fpr
      = ((fpsOf labels scores).map
          (fun (f : ℕ) => (f : ℚ) / (nOf labels scores : ℚ))).map some := by
  show (if nOf labels scores = 0 then _ else _) = _
  rw [if_neg hn, List.map_map]
  rfl

theorem rocCurveBody_tpr_of_ne (labels : List ℕ) (scores : List ℚ)
    (hp : pOf labels scores ≠ 0) :
    (rocCurveBody labels scores).tpr
      = ((tpsOf labels scores).map
          (fun (t : ℕ) => (t : ℚ) / (pOf labels scores : ℚ))).map some := by
  show (if pOf labels scores = 0 then _ else _) = _
  rw [if_neg hp, List.map_map]
  rfl

/-- C6: on non-degenerate populations the calibrated threshold is
`thresholds[argmax(tpr - fpr)]` where the Youden statistic list is NaN-free,
`numpy.argmax` picks its FIRST maximising index, and the threshold list of
the ROC curve is strictly descending — so the tie-break is deterministic
and takes the first maximising threshold in descending-threshold order. -/
theorem calibrate_threshold_first_max (hs ls : List ℚ) (hh : hs ≠ [])
    (hl : ls ≠ []) :
    ∃ (r : Report) (J : List ℚ),
      get_roc_metrics hs ls = some r ∧
      List.zipWith nsub
        (rocCurveBody (real_labels hs ls) (predicted_probs hs ls)).tpr
        (rocCurveBody (real_labels hs ls) (predicted_probs hs ls)).fpr
        = J.map some ∧
      (thrOf (real_labels hs ls) (predicted_probs hs ls)).Pairwise threshGt ∧
      J.length = (thrOf (real_labels hs ls) (predicted_probs hs ls)).length ∧
      IsFirstMax J (npArgmax (J.map some)) ∧
      r.optimal_threshold
        = (thrOf (real_labels hs ls) (predicted_probs hs ls)).getD
            (npArgmax (J.map some)) .pinf := by
  have hp : predicted_probs hs ls ≠ [] := by
    unfold predicted_probs
    simp [hh]
  have hn0 : nOf (real_labels hs ls) (predicted_probs hs ls) ≠ 0 := by
    rw [nOf_eq hs ls hp]
    simpa using fun hz => hh (List.length_eq_zero.mp hz)
  have hp0 : pOf (real_labels hs ls) (predicted_probs hs ls) ≠ 0 := by
    rw [pOf_eq hs ls hp]
    simpa using fun hz => hl (List.length_eq_zero.mp hz)
  have hfpr := rocCurveBody_fpr_of_ne (real_labels hs ls) (predicted_probs hs ls) hn0
  have htpr := rocCurveBody_tpr_of_ne (real_labels hs ls) (predicted_probs hs ls) hp0
  have hJ : List.zipWith nsub
      (rocCurveBody (real_labels hs ls) (predicted_probs hs ls)).tpr
      (rocCurveBody (real_labels hs ls) (predicted_probs hs ls)).fpr
      = (List.zipWith (fun x y => x - y)
          ((tpsOf (real_labels hs ls) (predicted_probs hs ls)).map
            (fun (t : ℕ) => (t : ℚ) / (pOf (real_labels hs ls) (predicted_probs hs ls) : ℚ)))
          ((fpsOf (real_labels hs ls) (predicted_probs hs ls)).map
            (fun (f : ℕ) => (f : ℚ) / (nOf (real_labels hs ls) (predicted_probs hs ls) : ℚ)))).map some := by
    rw [hfpr, htpr, zipWith_nsub_map_some]
  have hne : ptsOf (real_labels hs ls) (predicted_probs hs ls) ≠ [] :=
    ptsOf_ne_nil _ _ hp
  have hlenpts : 0 < (ptsOf (real_labels hs ls) (predicted_probs hs ls)).length :=
    List.length_pos.mpr hne
  have hJlen : (List.zipWith (fun x y => x - y)
      ((tpsOf (real_labels hs ls) (predicted_probs hs ls)).map
        (fun (t : ℕ) => (t : ℚ) / (pOf (real_labels hs ls) (predicted_probs hs ls) : ℚ)))
      ((fpsOf (real_labels hs ls) (predicted_probs hs ls)).map
        (fun (f : ℕ) => (f : ℚ) / (nOf (real_labels hs ls) (predicted_probs hs ls) : ℚ)))).length
      = (thrOf (real_labels hs ls) (predicted_probs hs ls)).length := by
    rw [List.length_zipWith, List.length_map, List.length_map]
    unfold tpsOf fpsOf thrOf
    simp
  have hJne : (List.zipWith (fun x y => x - y)
      ((tpsOf (real_labels hs ls) (predicted_probs hs ls)).map
        (fun (t : ℕ) => (t : ℚ) / (pOf (real_labels hs ls) (predicted_probs hs ls) : ℚ)))
      ((fpsOf (real_labels hs ls) (predicted_probs hs ls)).map
        (fun (f : ℕ) => (f : ℚ) / (nOf (real_labels hs ls) (predicted_probs hs ls) : ℚ)))) ≠ [] := by
    intro hz
    have := hJlen
    rw [hz] at this
    unfold thrOf at this
    simp at this
  obtain ⟨a, -, hc⟩ := calibrateOn_eq (real_labels hs ls) (predicted_probs hs ls) hp
  refine ⟨_, _, by unfold get_roc_metrics; exact hc, hJ, thrOf_pairwise _ _, hJlen,
    npArgmax_spec _ hJne, ?_⟩
  show chosenThresh (real_labels hs ls) (predicted_probs hs ls) = _
  unfold chosenThresh
  rw [hJ]

/-- C6 (witness): the first-maximum threshold selection at a concrete pair
of populations. -/
theorem calibrate_threshold_first_max_witness :
    ∃ (r : Report) (J : List ℚ),
      get_roc_metrics [1/10, 2/10] [8/10, 9/10] = some r ∧
      List.zipWith nsub
        (rocCurveBody (real_labels [1/10, 2/10] [8/10, 9/10])
          (predicted_probs [1/10, 2/10] [8/10, 9/10])).tpr
        (rocCurveBody (real_labels [1/10, 2/10] [8/10, 9/10])
          (predicted_probs [1/10, 2/10] [8/10, 9/10])).fpr
        = J.map some ∧
      (thrOf (real_labels [1/10, 2/10] [8/10, 9/10])
        (predicted_probs [1/10, 2/10] [8/10, 9/10])).Pairwise threshGt ∧
      J.length = (thrOf (real_labels [1/10, 2/10] [8/10, 9/10])
        (predicted_probs [1/10, 2/10] [8/10, 9/10])).length ∧
      IsFirstMax J (npArgmax (J.map some)) ∧
      r.optimal_threshold
        = (thrOf (real_labels [1/10, 2/10] [8/10, 9/10])
            (predicted_probs [1/10, 2/10] [8/10, 9/10])).getD
            (npArgmax (J.map some)) .pinf :=
  calibrate_threshold_first_max [1/10, 2/10] [8/10, 9/10]
    (List.cons_ne_nil _ _) (List.cons_ne_nil _ _)

end GECScore
